import Mathlib

/-!
# Verification of the Pew W152 dashboard's weighted statistical aggregation engine

Shallow embedding of the statistical core of `src/app.py` (and the constants it
takes from `src/config.py`): the weighted distribution calculator
(`weighted_pct`, app.py lines 136–153), the weighted cross-tabulation
calculator (`weighted_crosstab`, lines 156–173), Cramér's V over the
chi-square association test (`cramers_v`, lines 176–183, which calls
scipy's `chi2_contingency`), and the weighted confidence-interval
estimator (lines 786–807).

Survey values are `Option ℤ` (a missing/NaN cell is `none`), weights are `ℚ`,
and code→label mappings are association lists `List (ℤ × String)` standing
for Python dicts (hence their keys are assumed `Nodup` where it matters, and
iteration order is insertion order).  Python's `round(x, k)` is modelled by
rounding `x·10^k` to the nearest integer; Python rounds ties to even while
`round` here rounds ties up, but every concrete value appearing below is
tie-free and every bound used (`|round y − y| ≤ 1/2`) holds for both.
-/

namespace PewW152

/-- `C.REFUSED_CODE` from `src/config.py` line 19: the reserved
"refused / no answer" sentinel code. -/
def REFUSED_CODE : Int := 99

/-- `round(x, 1)` on a rational: round to one decimal place. -/
def round1 (x : ℚ) : ℚ := ((round (10 * x) : ℤ) : ℚ) / 10

/-- `round(x, 2)`: round to two decimal places. -/
def round2 (x : ℚ) : ℚ := ((round (100 * x) : ℤ) : ℚ) / 100

/-- `round(x, 0)`: round to the nearest integer (result still a number,
as in Python where `round(x, 0)` returns a float). -/
def round0 (x : ℚ) : ℚ := ((round x : ℤ) : ℚ)

/-- Model of Python's `sorted` on a list of integer keys (insertion sort;
the keys of interest are the keys of a dict, hence duplicate-free, so any
stable comparison sort agrees with this one). -/
def sortInts (l : List Int) : List Int := l.insertionSort (· ≤ ·)

/-- `sorted(value_map.keys())` for an association-list dict. -/
def sortedKeys (vmap : List (Int × String)) : List Int :=
  sortInts (vmap.map Prod.fst)

/-- `value_map[val]` lookup (total, with junk default `""`; the call sites
only look up keys present in the dict, whose keys are duplicate-free). -/
def lookupLabel : List (Int × String) → Int → String
  | [], _ => ""
  | p :: l, val => if p.1 = val then p.2 else lookupLabel l val

/-- One output row of `weighted_pct`:
`{"value": …, "label": …, "pct": …, "weighted_n": …}` (app.py 151–152). -/
structure PctRow where
  value : Int
  label : String
  pct : ℚ
  weighted_n : ℚ
deriving DecidableEq

/-- The masked `(value, weight)` pairs of `weighted_pct` (app.py 138–142):
`mask = series.notna()`, and when `exclude_refused` also
`series != C.REFUSED_CODE`; `s = series[mask]`, `w = weights[mask]`.
`values` and `weights` are parallel sequences, paired positionally. -/
def maskedPairs (values : List (Option Int)) (weights : List ℚ)
    (exclude_refused : Bool) : List (Option Int × ℚ) :=
  (values.zip weights).filter fun p =>
    p.1.isSome && (!exclude_refused || decide (p.1 ≠ some REFUSED_CODE))

/-- `total_w = w.sum()` (app.py 143). -/
def totalW (values : List (Option Int)) (weights : List ℚ)
    (exclude_refused : Bool) : ℚ :=
  ((maskedPairs values weights exclude_refused).map Prod.snd).sum

/-- `wn = w[s == val].sum()` (app.py 148–149). -/
def weightedN (values : List (Option Int)) (weights : List ℚ)
    (exclude_refused : Bool) (val : Int) : ℚ :=
  (((maskedPairs values weights exclude_refused).filter
      fun p => decide (p.1 = some val)).map Prod.snd).sum

/-- `weighted_pct(series, weights, value_map, exclude_refused=True)`
(app.py 136–153): for each `val` in `sorted(value_map.keys())`, skipping the
refused code when `exclude_refused`, emit a row with
`pct = wn / total_w * 100 if total_w > 0 else 0` rounded to 1 decimal and
`weighted_n = round(wn, 1)`. -/
def weighted_pct (values : List (Option Int)) (weights : List ℚ)
    (value_map : List (Int × String)) (exclude_refused : Bool) : List PctRow :=
  let total_w := totalW values weights exclude_refused
  ((sortedKeys value_map).filter
      fun val => !(exclude_refused && decide (val = REFUSED_CODE))).map fun val =>
    let wn := weightedN values weights exclude_refused val
    let pct := if total_w > 0 then wn / total_w * 100 else 0
    ⟨val, lookupLabel value_map val, round1 pct, round1 wn⟩

/-- One dataset row restricted to the three columns `weighted_crosstab`
reads: the question column, the demographic column, and the weight column. -/
structure SRecord where
  q : Option Int
  demo : Option Int
  w : ℚ
deriving DecidableEq

/-- One output row of `weighted_crosstab`:
`{"demo_label": …, "q_label": …, "pct": …}` (app.py 172). -/
structure CTRow where
  demo_label : String
  q_label : String
  pct : ℚ
deriving DecidableEq

/-- The crosstab mask (app.py 158–159): both columns non-missing and not the
refused code. -/
def ctMask (r : SRecord) : Bool :=
  r.q.isSome && r.demo.isSome &&
    decide (r.q ≠ some REFUSED_CODE) && decide (r.demo ≠ some REFUSED_CODE)

/-- `dsub = sub[sub[demo_col] == dv]` (app.py 165): the masked records of
demographic category `dv`. -/
def dSub (recs : List SRecord) (dv : Int) : List SRecord :=
  (recs.filter ctMask).filter fun r => decide (r.demo = some dv)

/-- `tw = dsub[weight_col].sum()` (app.py 166). -/
def ctTW (recs : List SRecord) (dv : Int) : ℚ :=
  ((dSub recs dv).map SRecord.w).sum

/-- `wn = dsub.loc[dsub[q_col] == qv, weight_col].sum()` (app.py 170). -/
def ctWN (recs : List SRecord) (dv qv : Int) : ℚ :=
  (((dSub recs dv).filter fun r => decide (r.q = some qv)).map SRecord.w).sum

/-- The percentage `weighted_crosstab` reports for the cell `(dv, qv)`
(app.py 171–172): `wn / tw * 100 if tw > 0 else 0`, rounded to 1 decimal.
It depends only on the records of demographic category `dv`. -/
def crosstabPct (recs : List SRecord) (dv qv : Int) : ℚ :=
  round1 (if ctTW recs dv > 0 then ctWN recs dv qv / ctTW recs dv * 100 else 0)

/-- The block of rows the inner loop of `weighted_crosstab` (app.py 167–172)
emits for one demographic pair `(dv, dl)`: one row per non-refused entry of
`q_vals`, in insertion order. -/
def ctBlock (recs : List SRecord) (q_vals : List (Int × String))
    (dv : Int) (dl : String) : List CTRow :=
  q_vals.flatMap fun p =>
    if p.1 = REFUSED_CODE then [] else [⟨dl, p.2, crosstabPct recs dv p.1⟩]

/-- `weighted_crosstab(df, q_col, demo_col, q_vals, demo_vals)`
(app.py 156–173): for each `(dv, dl)` of `demo_vals` in dict insertion
order, skipping the refused code, one row per non-refused `(qv, ql)` of
`q_vals` in insertion order. -/
def weighted_crosstab (recs : List SRecord) (q_vals demo_vals : List (Int × String)) :
    List CTRow :=
  demo_vals.flatMap fun p =>
    if p.1 = REFUSED_CODE then [] else ctBlock recs q_vals p.1 p.2

/-- The masked `(value, weight)` pairs of the CI estimator (app.py 786–787):
`mask_ci = df[ci_q].notna() & (df[ci_q] != C.REFUSED_CODE)`. -/
def ciPairs (values : List (Option Int)) (weights : List ℚ) :
    List (Option Int × ℚ) :=
  (values.zip weights).filter fun p =>
    p.1.isSome && decide (p.1 ≠ some REFUSED_CODE)

/-- `total_w_ci = sub_ci[W].sum()` (app.py 788). -/
def ciTotalW (values : List (Option Int)) (weights : List ℚ) : ℚ :=
  ((ciPairs values weights).map Prod.snd).sum

/-- `n_eff = total_w_ci**2 / (sub_ci[W]**2).sum()` (app.py 789), the
design-effect effective sample size.  (Division by zero is the rational
convention `x / 0 = 0`; the Python code produces NaN there.) -/
def n_eff (values : List (Option Int)) (weights : List ℚ) : ℚ :=
  (ciTotalW values weights) ^ 2 / (((ciPairs values weights).map fun p => p.2 ^ 2).sum)

/-- `round(x, 2)` on a real number (used for the columns that involve a
square root). -/
noncomputable def roundR2 (x : ℝ) : ℝ := ((round (100 * x) : ℤ) : ℝ) / 100

/-- `p_hat = sub_ci.loc[sel, W].sum() / total_w_ci` (app.py 795–796). -/
def pHat (values : List (Option Int)) (weights : List ℚ) (val : Int) : ℚ :=
  (((ciPairs values weights).filter fun p => decide (p.1 = some val)).map
    Prod.snd).sum / ciTotalW values weights

/-- One output row of the CI table (app.py 800–807).  The percentage and
effective-N columns stay rational; the standard error and the interval
endpoints involve a square root and live in `ℝ`. -/
structure CIRow where
  response : String
  wpct : ℚ
  se : ℝ
  ci_lower : ℝ
  ci_upper : ℝ
  eff_n : ℚ

/-- The CI-estimator loop (app.py 791–807): for each `(val, label)` of the
question's value map in insertion order, skipping the refused code, a row
with `se = sqrt(p_hat*(1-p_hat)/n_eff)`, Wald endpoints clamped to `[0,1]`,
all percentage-like columns `round(·*100, 2)` and `Eff. N` `round(·, 0)`.
(`math.sqrt` of a negative raises in Python; `Real.sqrt` returns 0.  No
claim touches that branch: with nonnegative weights `p_hat ∈ [0,1]`.) -/
noncomputable def ci_records (values : List (Option Int)) (weights : List ℚ)
    (q_vals : List (Int × String)) : List CIRow :=
  let neff := n_eff values weights
  q_vals.flatMap fun p =>
    if p.1 = REFUSED_CODE then [] else
      let ph := pHat values weights p.1
      let se : ℝ := Real.sqrt ((ph * (1 - ph) / neff : ℚ) : ℝ)
      let ci_lo : ℝ := max 0 ((ph : ℝ) - 196/100 * se)
      let ci_hi : ℝ := min 1 ((ph : ℝ) + 196/100 * se)
      [⟨p.2, round2 (ph * 100),
        roundR2 (se * 100),
        roundR2 (ci_lo * 100),
        roundR2 (ci_hi * 100),
        round0 neff⟩]

/-- Row marginal `R i` of a contingency table. -/
def rowSum {r c : ℕ} (O : Fin r → Fin c → ℚ) (i : Fin r) : ℚ := ∑ j, O i j

/-- Column marginal `C j` of a contingency table. -/
def colSum {r c : ℕ} (O : Fin r → Fin c → ℚ) (j : Fin c) : ℚ := ∑ i, O i j

/-- Grand total `n = contingency_table.sum().sum()` (app.py 179). -/
def grandTotal {r c : ℕ} (O : Fin r → Fin c → ℚ) : ℚ := ∑ i, ∑ j, O i j

/-- Expected frequency `row_total × col_total / grand_total` per cell. -/
def expectedFreq {r c : ℕ} (O : Fin r → Fin c → ℚ) (i : Fin r) (j : Fin c) : ℚ :=
  rowSum O i * colSum O j / grandTotal O

/-- Pearson's chi-square statistic `Σ (O−E)²/E`. -/
def pearsonChi2 {r c : ℕ} (O : Fin r → Fin c → ℚ) : ℚ :=
  ∑ i, ∑ j, (O i j - expectedFreq O i j) ^ 2 / expectedFreq O i j

/-- The chi-square statistic with Yates' continuity correction, as scipy
applies it when `dof == 1`: each observed cell is moved toward its expected
value by `min(0.5, |O−E|)`, which shrinks each deviation to
`max(|O−E| − 0.5, 0)`. -/
def yatesChi2 {r c : ℕ} (O : Fin r → Fin c → ℚ) : ℚ :=
  ∑ i, ∑ j, max (|O i j - expectedFreq O i j| - 1/2) 0 ^ 2 / expectedFreq O i j

/-- The chi-square statistic scipy's default call actually returns for a
non-degenerate table: Yates-corrected when `dof == 1`, Pearson otherwise. -/
def chi2stat {r c : ℕ} (O : Fin r → Fin c → ℚ) : ℚ :=
  if (r - 1) * (c - 1) = 1 then yatesChi2 O else pearsonChi2 O

/-- The scipy error message for a zero expected frequency. -/
def zeroExpectedMsg : String :=
  "The internally computed table of expected frequencies has a zero element."

/-- Modelled from the external collaborator `scipy.stats.chi2_contingency`
(called with its defaults at app.py 178), restricted to the statistic the
dashboard consumes (`[0]`): it raises on a negative entry or an empty
table; it raises when the internally computed expected-frequency table has
a zero element — with a zero grand total the expected cells are NaN, which
compare unequal to zero, so that check passes and the returned statistic is
NaN, modelled as `none`; with `dof == 0` the statistic is `0.0`; with
`dof == 1` Yates' continuity correction is applied (`correction=True`
default); otherwise the plain Pearson statistic is returned. -/
def chi2_contingency {r c : ℕ} (O : Fin r → Fin c → ℚ) :
    Except String (Option ℚ) :=
  if ∃ i j, O i j < 0 then
    .error "All values in observed must be nonnegative."
  else if r = 0 ∨ c = 0 then
    .error "No data; observed has size 0."
  else if grandTotal O ≠ 0 ∧ ((∃ i, rowSum O i = 0) ∨ ∃ j, colSum O j = 0) then
    .error zeroExpectedMsg
  else if (r - 1) * (c - 1) = 0 then
    .ok (some 0)
  else if grandTotal O = 0 then
    .ok none
  else if (r - 1) * (c - 1) = 1 then
    .ok (some (yatesChi2 O))
  else
    .ok (some (pearsonChi2 O))

/-- `cramers_v(contingency_table)` (app.py 176–183): the chi-square
statistic is computed first — so any exception from `chi2_contingency`
propagates — then `min_dim = min(contingency_table.shape) - 1`, and the
function returns `0` when `min_dim == 0 or n == 0`, else
`sqrt(chi2 / (n * min_dim))`. -/
noncomputable def cramers_v {r c : ℕ} (O : Fin r → Fin c → ℚ) :
    Except String ℝ :=
  (chi2_contingency O).map fun chi2 =>
    if min (r : ℤ) (c : ℤ) - 1 = 0 ∨ grandTotal O = 0 then 0
    else Real.sqrt (((chi2.getD 0 /
      (grandTotal O * ((min (r : ℤ) (c : ℤ) - 1 : ℤ) : ℚ))) : ℚ) : ℝ)

/-! ## General helper lemmas -/

/-- Rounding to one decimal moves a rational by at most `1/20`. -/
lemma abs_round1_sub (x : ℚ) : |round1 x - x| ≤ 1 / 20 := by
  have h : |10 * x - (round (10 * x) : ℚ)| ≤ 1 / 2 := abs_sub_round (10 * x)
  have hx : round1 x - x = (((round (10 * x) : ℤ) : ℚ) - 10 * x) / 10 := by
    rw [round1]; ring
  rw [hx, abs_div, abs_sub_comm]
  have h10 : |(10 : ℚ)| = 10 := by norm_num
  rw [h10, div_le_iff₀ (by norm_num : (0:ℚ) < 10)]
  linarith

/-- Summing rationals rounded to one decimal stays within `1/20` per
element of the unrounded sum. -/
lemma sum_round1_close (l : List ℚ) :
    |(l.map round1).sum - l.sum| ≤ l.length * (1 / 20) := by
  induction l with
  | nil => simp
  | cons a l ih =>
      have ha := abs_round1_sub a
      have : (round1 a + (l.map round1).sum) - (a + l.sum) =
          (round1 a - a) + ((l.map round1).sum - l.sum) := by ring
      simp only [List.map_cons, List.sum_cons, List.length_cons, this]
      calc |(round1 a - a) + ((l.map round1).sum - l.sum)|
          ≤ |round1 a - a| + |(l.map round1).sum - l.sum| := abs_add _ _
        _ ≤ 1 / 20 + l.length * (1 / 20) := by gcongr
        _ = (l.length + 1) * (1 / 20) := by ring
        _ = ((l.length + 1 : ℕ) : ℚ) * (1 / 20) := by push_cast; ring

/-- Inserting a single key's contribution into a sum over duplicate-free
keys containing it. -/
lemma sum_map_if_insert {α : Type} [DecidableEq α] (a : α) (x : ℚ) (g : α → ℚ) :
    ∀ keys : List α, keys.Nodup → a ∈ keys →
      (keys.map fun k => if a = k then x + g k else g k).sum = x + (keys.map g).sum := by
  intro keys
  induction keys with
  | nil => intro _ h; exact absurd h (List.not_mem_nil a)
  | cons b ks ih =>
      intro hnd hmem
      rcases List.mem_cons.mp hmem with hab | ha
      · subst hab
        have hnotin : a ∉ ks := (List.nodup_cons.mp hnd).1
        have : ks.map (fun k => if a = k then x + g k else g k) = ks.map g := by
          apply List.map_congr_left
          intro k hk
          have : a ≠ k := fun h => hnotin (h ▸ hk)
          simp [this]
        simp only [List.map_cons, List.sum_cons, this, if_pos]
        ring
      · have hnd' : ks.Nodup := (List.nodup_cons.mp hnd).2
        have hab : a ≠ b := by
          rintro rfl
          exact (List.nodup_cons.mp hnd).1 ha
        simp only [List.map_cons, List.sum_cons, if_neg hab, ih hnd' ha]
        ring

/-- Partition of a weighted sum by key: if every pair's key occurs in the
duplicate-free list `keys`, summing the per-key filtered weight sums over
`keys` recovers the total weight. -/
lemma sum_partition {α : Type} [DecidableEq α] (keys : List α) :
    ∀ L : List (α × ℚ), keys.Nodup → (∀ p ∈ L, p.1 ∈ keys) →
      (keys.map fun k => ((L.filter fun p => decide (p.1 = k)).map Prod.snd).sum).sum
        = (L.map Prod.snd).sum := by
  intro L
  induction L with
  | nil => intro _ _; simp
  | cons p L ih =>
      intro hnd hcov
      have hp : p.1 ∈ keys := hcov p (List.mem_cons_self p L)
      have hcov' : ∀ q ∈ L, q.1 ∈ keys := fun q hq => hcov q (List.mem_cons_of_mem p hq)
      have hstep : (keys.map fun k =>
          (((p :: L).filter fun q => decide (q.1 = k)).map Prod.snd).sum) =
          keys.map fun k => if p.1 = k then
            p.2 + ((L.filter fun q => decide (q.1 = k)).map Prod.snd).sum
          else ((L.filter fun q => decide (q.1 = k)).map Prod.snd).sum := by
        apply List.map_congr_left
        intro k _
        by_cases h : p.1 = k
        · simp [List.filter_cons, h]
        · simp [List.filter_cons, h]
      rw [hstep, sum_map_if_insert p.1 p.2 _ keys hnd hp, ih hnd hcov']
      simp

/-- A `flatMap` whose body skips via `if … then [] else` is a `flatMap`
over the filtered list. -/
lemma flatMap_if_skip {α β : Type} (P : α → Prop) [DecidablePred P] (g : α → List β) :
    ∀ l : List α, (l.flatMap fun a => if P a then [] else g a) =
      (l.filter fun a => decide (¬ P a)).flatMap g := by
  intro l
  induction l with
  | nil => simp
  | cons a l ih =>
      by_cases h : P a <;> simp [List.filter_cons, h, ih]

/-- A `flatMap` of singletons is a `map`. -/
lemma flatMap_singleton_eq_map {α β : Type} (f : α → β) :
    ∀ l : List α, (l.flatMap fun a => [f a]) = l.map f := by
  intro l
  induction l with
  | nil => rfl
  | cons a l ih => simp [ih]

/-! ## Structural lemmas about `weighted_pct` -/

/-- `round(0, k) = 0`. -/
lemma round1_zero : round1 0 = 0 := by simp [round1]

/-- `weighted_pct` unfolded to a `map` over the filtered sorted keys. -/
lemma weighted_pct_eq_map (values : List (Option Int)) (weights : List ℚ)
    (vmap : List (Int × String)) (ex : Bool) :
    weighted_pct values weights vmap ex =
      ((sortedKeys vmap).filter fun val => !(ex && decide (val = REFUSED_CODE))).map
        fun val =>
          ⟨val, lookupLabel vmap val,
            round1 (if totalW values weights ex > 0 then
              weightedN values weights ex val / totalW values weights ex * 100 else 0),
            round1 (weightedN values weights ex val)⟩ := rfl

/-- The output codes of `weighted_pct` are the filtered sorted mapping keys. -/
lemma weighted_pct_map_value (values : List (Option Int)) (weights : List ℚ)
    (vmap : List (Int × String)) (ex : Bool) :
    (weighted_pct values weights vmap ex).map (·.value) =
      (sortedKeys vmap).filter fun val => !(ex && decide (val = REFUSED_CODE)) := by
  rw [weighted_pct_eq_map, List.map_map]
  exact List.map_id _

/-- The `exclude_refused=True` key filter is the plain "not refused" filter. -/
lemma filter_keys_true (l : List Int) :
    (l.filter fun val => !(true && decide (val = REFUSED_CODE))) =
      l.filter fun val => decide (val ≠ REFUSED_CODE) := by
  apply List.filter_congr
  intro a _
  by_cases h : a = REFUSED_CODE <;> simp [h]

/-- Membership in the `exclude_refused=True` mask. -/
lemma mem_maskedPairs_true (values : List (Option Int)) (weights : List ℚ)
    (p : Option Int × ℚ) :
    p ∈ maskedPairs values weights true ↔
      p ∈ values.zip weights ∧ p.1.isSome = true ∧ p.1 ≠ some REFUSED_CODE := by
  simp [maskedPairs, List.mem_filter, and_assoc]

/-- If every record is missing or refused, the mask is empty. -/
lemma maskedPairs_true_eq_nil (values : List (Option Int)) (weights : List ℚ)
    (hall : ∀ v ∈ values, v = none ∨ v = some REFUSED_CODE) :
    maskedPairs values weights true = [] := by
  rw [maskedPairs, List.filter_eq_nil_iff]
  intro p hp
  rcases hall p.1 (List.of_mem_zip hp).1 with h | h <;> simp [h]

/-- If no record carries the code `val`, its weighted count is zero. -/
lemma weightedN_eq_zero (values : List (Option Int)) (weights : List ℚ)
    (val : Int) (hv : ∀ v ∈ values, v ≠ some val) :
    weightedN values weights true val = 0 := by
  rw [weightedN]
  have : (maskedPairs values weights true).filter
      (fun p => decide (p.1 = some val)) = [] := by
    rw [List.filter_eq_nil_iff]
    intro p hp
    have hmem := ((mem_maskedPairs_true values weights p).mp hp).1
    have := hv p.1 (List.of_mem_zip hmem).1
    simp [this]
  rw [this]
  rfl

/-! ## Claim theorems about `weighted_pct` (C4, C5, C10) -/

/-- **C4.** For every input to the weighted distribution calculator in which
every record is missing or refused (so the weighted base is zero), the
calculator returns a row for every non-refused category with percent 0 and
weighted count 0 — a well-defined result, with the division guarded by the
`total_w > 0` test, not an error. -/
theorem weighted_pct_zero_base_rows (values : List (Option Int)) (weights : List ℚ)
    (vmap : List (Int × String))
    (hall : ∀ v ∈ values, v = none ∨ v = some REFUSED_CODE) :
    (∀ c ∈ sortedKeys vmap, c ≠ REFUSED_CODE →
      (⟨c, lookupLabel vmap c, 0, 0⟩ : PctRow) ∈ weighted_pct values weights vmap true)
    ∧ ∀ row ∈ weighted_pct values weights vmap true,
        row.pct = 0 ∧ row.weighted_n = 0 := by
  have hmask := maskedPairs_true_eq_nil values weights hall
  have htot : totalW values weights true = 0 := by rw [totalW, hmask]; rfl
  have hwn : ∀ val, weightedN values weights true val = 0 := by
    intro val; rw [weightedN, hmask]; rfl
  have hrow : ∀ val,
      round1 (if totalW values weights true > 0 then
        weightedN values weights true val / totalW values weights true * 100
      else 0) = 0 := by
    intro val
    rw [htot, if_neg (lt_irrefl 0), round1_zero]
  constructor
  · intro c hc hcne
    rw [weighted_pct_eq_map]
    apply List.mem_map.mpr
    refine ⟨c, ?_, ?_⟩
    · rw [List.mem_filter]
      exact ⟨hc, by simp [hcne]⟩
    · rw [hrow, hwn, round1_zero]
  · intro row hrow_mem
    rw [weighted_pct_eq_map] at hrow_mem
    rcases List.mem_map.mp hrow_mem with ⟨val, _, hval⟩
    rw [← hval]
    exact ⟨hrow val, by rw [hwn, round1_zero]⟩

/-- **C4 witness.** Two records, one missing and one refused, with a
two-entry mapping. -/
theorem weighted_pct_zero_base_rows_w :
    (∀ v ∈ ([none, some 99] : List (Option Int)), v = none ∨ v = some REFUSED_CODE)
    ∧ ((∀ c ∈ sortedKeys [(1,"A"),(99,"R")], c ≠ REFUSED_CODE →
        (⟨c, lookupLabel [(1,"A"),(99,"R")] c, 0, 0⟩ : PctRow) ∈
          weighted_pct [none, some 99] [2, 3] [(1,"A"),(99,"R")] true)
      ∧ ∀ row ∈ weighted_pct [none, some 99] [2, 3] [(1,"A"),(99,"R")] true,
          row.pct = 0 ∧ row.weighted_n = 0) :=
  ⟨by decide, weighted_pct_zero_base_rows [none, some 99] [2, 3]
    [(1,"A"),(99,"R")] (by decide)⟩

/-- **C5 counterexample.** The claim says a call with a negative weight
fails with an InvalidInput error.  The code performs no such validation: at
`values=[1]`, `weights=[-1]`, mapping `{1:"A"}`, `weighted_pct` returns a
computed row (with weighted count −1 and percent 0, since the negative
total fails the `total_w > 0` test) instead of failing. -/
theorem weighted_pct_negative_weight_cex :
    weighted_pct [some 1] [-1] [(1, "A")] true = [⟨1, "A", 0, -1⟩] := by
  norm_num [weighted_pct, totalW, weightedN, maskedPairs, sortedKeys, sortInts,
    List.insertionSort, List.orderedInsert, lookupLabel, round1, REFUSED_CODE,
    round_eq]

/-- **C5 amended.** The calculator performs no input validation: a call
with equal-length inputs and a negative weight still returns one row per
non-refused mapping category — a result, not an InvalidInput failure — and
whenever the (possibly negative) weighted total is not positive, every
returned percentage is 0.  (A mismatched-length call dies inside the
dataframe library with an index-alignment exception, not a designed
InvalidInput refusal; the positional pairing here models the equal-length
case.) -/
theorem weighted_pct_no_weight_validation (values : List (Option Int))
    (weights : List ℚ) (vmap : List (Int × String))
    (hlen : values.length = weights.length) (hneg : ∃ w ∈ weights, w < 0) :
    (weighted_pct values weights vmap true).map (·.value) =
      ((sortedKeys vmap).filter fun val => decide (val ≠ REFUSED_CODE))
    ∧ (totalW values weights true ≤ 0 →
        ∀ row ∈ weighted_pct values weights vmap true, row.pct = 0) := by
  constructor
  · rw [weighted_pct_map_value, filter_keys_true]
  · intro htot row hrow_mem
    rw [weighted_pct_eq_map] at hrow_mem
    rcases List.mem_map.mp hrow_mem with ⟨val, _, hval⟩
    rw [← hval]
    show round1 (if totalW values weights true > 0 then _ else 0) = 0
    rw [if_neg (not_lt.mpr htot), round1_zero]

/-- **C5 amended witness.** -/
theorem weighted_pct_no_weight_validation_w :
    (([some 1] : List (Option Int)).length = ([-1] : List ℚ).length
      ∧ ∃ w ∈ ([-1] : List ℚ), w < 0)
    ∧ ((weighted_pct [some 1] [-1] [(1, "A")] true).map (·.value) =
        ((sortedKeys [(1, "A")]).filter fun val => decide (val ≠ REFUSED_CODE))
      ∧ (totalW [some 1] [-1] true ≤ 0 →
          ∀ row ∈ weighted_pct [some 1] [-1] [(1, "A")] true, row.pct = 0)) :=
  ⟨⟨rfl, ⟨-1, List.mem_singleton.mpr rfl, by norm_num⟩⟩,
    weighted_pct_no_weight_validation [some 1] [-1] [(1, "A")] rfl
      ⟨-1, List.mem_singleton.mpr rfl, by norm_num⟩⟩

/-- **C10.** With `exclude_refused=True`, the result has exactly one row per
non-refused mapping code — the same fixed set whatever the data: codes
matching no record still get a (0, 0) row; no row is ever produced for a
code outside the mapping; and every percentage is computed against the
denominator `totalW`, which is defined from the data alone (so the weight
of a record whose code is absent from the mapping still counts toward it). -/
theorem weighted_pct_row_structure (values : List (Option Int)) (weights : List ℚ)
    (vmap : List (Int × String)) (hnd : (vmap.map Prod.fst).Nodup) :
    List.Perm ((weighted_pct values weights vmap true).map (·.value))
      ((vmap.map Prod.fst).filter fun v => decide (v ≠ REFUSED_CODE))
    ∧ ((weighted_pct values weights vmap true).map (·.value)).Nodup
    ∧ (∀ row ∈ weighted_pct values weights vmap true,
        (∀ v ∈ values, v ≠ some row.value) → row.pct = 0 ∧ row.weighted_n = 0)
    ∧ (∀ row ∈ weighted_pct values weights vmap true,
        row.value ∈ vmap.map Prod.fst ∧ row.value ≠ REFUSED_CODE)
    ∧ ∀ row ∈ weighted_pct values weights vmap true,
        row.pct = round1 (if totalW values weights true > 0 then
          weightedN values weights true row.value / totalW values weights true * 100
        else 0) := by
  have hperm : List.Perm (sortInts (vmap.map Prod.fst)) (vmap.map Prod.fst) :=
    List.perm_insertionSort _ _
  have hmapv := weighted_pct_map_value values weights vmap true
  rw [filter_keys_true] at hmapv
  refine ⟨?_, ?_, ?_, ?_, ?_⟩
  · rw [hmapv]
    exact (hperm.filter _)
  · rw [hmapv]
    exact ((hperm.nodup_iff).mpr hnd).filter _
  · intro row hrow_mem hv
    rw [weighted_pct_eq_map] at hrow_mem
    rcases List.mem_map.mp hrow_mem with ⟨val, _, hval⟩
    have hwn : weightedN values weights true val = 0 := by
      apply weightedN_eq_zero
      intro v hvv
      have : row.value = val := by rw [← hval]
      rw [this] at hv
      exact hv v hvv
    rw [← hval]
    constructor
    · show round1 (if totalW values weights true > 0 then _ else 0) = 0
      rw [hwn]
      by_cases h : totalW values weights true > 0
      · rw [if_pos h, zero_div, zero_mul, round1_zero]
      · rw [if_neg h, round1_zero]
    · show round1 (weightedN values weights true val) = 0
      rw [hwn, round1_zero]
  · intro row hrow_mem
    have : row.value ∈ (weighted_pct values weights vmap true).map (·.value) :=
      List.mem_map.mpr ⟨row, hrow_mem, rfl⟩
    rw [hmapv, List.mem_filter] at this
    refine ⟨(hperm.mem_iff).mp this.1, by simpa using this.2⟩
  · intro row hrow_mem
    rw [weighted_pct_eq_map] at hrow_mem
    rcases List.mem_map.mp hrow_mem with ⟨val, _, hval⟩
    have : row.value = val := by rw [← hval]
    rw [this, ← hval]

/-! ## C1: the weighted percentages and their sum -/

/-- The per-category weighted counts over the non-refused mapping codes
partition the weighted total, provided the mapping keys are duplicate-free
and cover every masked value. -/
lemma sum_weightedN_eq_totalW (values : List (Option Int)) (weights : List ℚ)
    (vmap : List (Int × String)) (hnd : (vmap.map Prod.fst).Nodup)
    (hcov : ∀ p ∈ maskedPairs values weights true,
      p.1 ∈ vmap.map fun q => some q.1) :
    ((((sortedKeys vmap).filter fun v => decide (v ≠ REFUSED_CODE)).map
      fun val => weightedN values weights true val).sum)
      = totalW values weights true := by
  have hperm : List.Perm (sortInts (vmap.map Prod.fst)) (vmap.map Prod.fst) :=
    List.perm_insertionSort _ _
  set ks : List Int := (sortedKeys vmap).filter fun v => decide (v ≠ REFUSED_CODE)
    with hks
  have hknd : (ks.map some).Nodup := by
    apply List.Nodup.map (fun a b h => Option.some.inj h)
    exact ((hperm.nodup_iff).mpr hnd).filter _
  have hkcov : ∀ p ∈ maskedPairs values weights true, p.1 ∈ ks.map some := by
    intro p hp
    rcases (mem_maskedPairs_true values weights p).mp hp with ⟨_, hsome, hne⟩
    rcases Option.isSome_iff_exists.mp hsome with ⟨c, hc⟩
    have hcmem : p.1 ∈ vmap.map fun q => some q.1 := hcov p hp
    have hckeys : c ∈ vmap.map Prod.fst := by
      rcases List.mem_map.mp hcmem with ⟨q, hq, hqe⟩
      have : q.1 = c := by rw [hc] at hqe; exact Option.some.inj hqe
      exact this ▸ List.mem_map.mpr ⟨q, hq, rfl⟩
    have hcne : c ≠ REFUSED_CODE := by
      intro h
      exact hne (by rw [hc, h])
    have : c ∈ ks := by
      rw [hks, List.mem_filter]
      exact ⟨(hperm.mem_iff).mpr hckeys, by simp [hcne]⟩
    rw [hc]
    exact List.mem_map.mpr ⟨c, this, rfl⟩
  have hpart := sum_partition (ks.map some) (maskedPairs values weights true)
    hknd hkcov
  rw [List.map_map] at hpart
  exact hpart

/-- **C1 counterexample.** The claim's fixed `0.1` tolerance fails: six
equally weighted categories each truly at `100/6 ≈ 16.667%` all round up to
`16.7`, so the reported percentages sum to `100.2`, off by `0.2 > 0.1`,
although the weighted base `6` is strictly positive and the mapping covers
every record. -/
theorem weighted_pct_sum_tolerance_cex :
    totalW [some 1, some 2, some 3, some 4, some 5, some 6] [1,1,1,1,1,1] true > 0
    ∧ ((weighted_pct [some 1, some 2, some 3, some 4, some 5, some 6] [1,1,1,1,1,1]
        [(1,"a"),(2,"b"),(3,"c"),(4,"d"),(5,"e"),(6,"f")] true).map (·.pct)).sum
        = 1002/10
    ∧ ¬(|(1002/10 : ℚ) - 100| ≤ 1/10) := by
  refine ⟨?_, ?_, by norm_num [abs_le]⟩
  · norm_num [totalW, maskedPairs, REFUSED_CODE]
  · norm_num [weighted_pct, totalW, weightedN, maskedPairs, sortedKeys, sortInts,
      List.insertionSort, List.orderedInsert, lookupLabel, round1, REFUSED_CODE,
      round_eq]

/-- **C1 amended.** With a duplicate-free mapping covering every masked
value and a strictly positive weighted base, the unrounded percentages sum
to exactly 100, so the returned (1-decimal-rounded) percentages sum to 100
within `1/20` (= 0.05, the worst per-category rounding error) per returned
category — not within the flat 0.1 of the original claim, which the
counterexample refutes at six categories. -/
theorem weighted_pct_sum_per_category_bound (values : List (Option Int))
    (weights : List ℚ) (vmap : List (Int × String))
    (hnd : (vmap.map Prod.fst).Nodup)
    (hcov : ∀ p ∈ maskedPairs values weights true,
      p.1 ∈ vmap.map fun q => some q.1)
    (hpos : totalW values weights true > 0) :
    |((weighted_pct values weights vmap true).map (·.pct)).sum - 100|
      ≤ (weighted_pct values weights vmap true).length * (1 / 20) := by
  set T := totalW values weights true with hT
  set ks : List Int := (sortedKeys vmap).filter fun v => decide (v ≠ REFUSED_CODE)
    with hks
  have hTne : T ≠ 0 := ne_of_gt hpos
  -- the list of reported percentages is the rounded image of the true ones
  have hpcts : (weighted_pct values weights vmap true).map (·.pct) =
      ((ks.map fun val => weightedN values weights true val / T * 100).map round1) := by
    rw [weighted_pct_eq_map, List.map_map, filter_keys_true, List.map_map]
    apply List.map_congr_left
    intro val _
    show round1 (if T > 0 then weightedN values weights true val / T * 100 else 0) = _
    rw [if_pos hpos]
    rfl
  -- the true percentages sum to exactly 100
  have hsum : (ks.map fun val => weightedN values weights true val / T * 100).sum
      = 100 := by
    have : (ks.map fun val => weightedN values weights true val / T * 100) =
        ks.map fun val => weightedN values weights true val * (100 / T) := by
      apply List.map_congr_left
      intro val _
      field_simp
    rw [this, List.sum_map_mul_right,
      sum_weightedN_eq_totalW values weights vmap hnd hcov, ← hT]
    field_simp
  have hlen : (weighted_pct values weights vmap true).length =
      (ks.map fun val => weightedN values weights true val / T * 100).length := by
    rw [weighted_pct_eq_map, List.length_map, List.length_map, filter_keys_true]
  rw [hpcts, hlen]
  have h2 := sum_round1_close
    (ks.map fun val => weightedN values weights true val / T * 100)
  rw [hsum] at h2
  exact_mod_cast h2

/-- **C1 amended witness.** Two categories with weights 1 and 3: reported
percentages 25.0 and 75.0 sum to exactly 100. -/
theorem weighted_pct_sum_per_category_bound_w :
    ((([(1,"A"),(2,"B")] : List (Int × String)).map Prod.fst).Nodup
      ∧ (∀ p ∈ maskedPairs [some 1, some 2] [1, 3] true,
          p.1 ∈ ([(1,"A"),(2,"B")] : List (Int × String)).map fun q => some q.1)
      ∧ totalW [some 1, some 2] [1, 3] true > 0)
    ∧ |((weighted_pct [some 1, some 2] [1, 3] [(1,"A"),(2,"B")] true).map
        (·.pct)).sum - 100|
      ≤ (weighted_pct [some 1, some 2] [1, 3] [(1,"A"),(2,"B")] true).length
        * (1 / 20) :=
  ⟨⟨by decide, by decide,
      by norm_num [totalW, maskedPairs, REFUSED_CODE]⟩,
    weighted_pct_sum_per_category_bound [some 1, some 2] [1, 3] [(1,"A"),(2,"B")]
      (by decide) (by decide)
      (by norm_num [totalW, maskedPairs, REFUSED_CODE])⟩

/-- **C10 witness.** A record with code 7 outside the mapping `{1,99}`:
its weight is absorbed by the denominator, no row is emitted for it. -/
theorem weighted_pct_row_structure_w :
    ((([(1,"A"),(99,"R")] : List (Int × String)).map Prod.fst).Nodup)
    ∧ (List.Perm ((weighted_pct [some 7, some 1] [3, 1] [(1,"A"),(99,"R")] true).map
          (·.value))
        ((([(1,"A"),(99,"R")] : List (Int × String)).map Prod.fst).filter
          fun v => decide (v ≠ REFUSED_CODE))
      ∧ ((weighted_pct [some 7, some 1] [3, 1] [(1,"A"),(99,"R")] true).map
          (·.value)).Nodup
      ∧ (∀ row ∈ weighted_pct [some 7, some 1] [3, 1] [(1,"A"),(99,"R")] true,
          (∀ v ∈ ([some 7, some 1] : List (Option Int)), v ≠ some row.value) →
            row.pct = 0 ∧ row.weighted_n = 0)
      ∧ (∀ row ∈ weighted_pct [some 7, some 1] [3, 1] [(1,"A"),(99,"R")] true,
          row.value ∈ ([(1,"A"),(99,"R")] : List (Int × String)).map Prod.fst
            ∧ row.value ≠ REFUSED_CODE)
      ∧ ∀ row ∈ weighted_pct [some 7, some 1] [3, 1] [(1,"A"),(99,"R")] true,
          row.pct = round1 (if totalW [some 7, some 1] [3, 1] true > 0 then
            weightedN [some 7, some 1] [3, 1] true row.value /
              totalW [some 7, some 1] [3, 1] true * 100
          else 0)) :=
  ⟨by decide, weighted_pct_row_structure [some 7, some 1] [3, 1]
    [(1,"A"),(99,"R")] (by decide)⟩

/-! ## Structural lemmas about `weighted_crosstab` -/

/-- `ctBlock` unfolded to a `map` over the non-refused question pairs. -/
lemma ctBlock_eq_map (recs : List SRecord) (q_vals : List (Int × String))
    (dv : Int) (dl : String) :
    ctBlock recs q_vals dv dl =
      (q_vals.filter fun p => decide (¬ p.1 = REFUSED_CODE)).map fun p =>
        ⟨dl, p.2, crosstabPct recs dv p.1⟩ := by
  rw [ctBlock, flatMap_if_skip, flatMap_singleton_eq_map]

/-- Membership in the demographic subset. -/
lemma mem_dSub (recs : List SRecord) (dv : Int) (r : SRecord) :
    r ∈ dSub recs dv ↔ r ∈ recs ∧ ctMask r = true ∧ r.demo = some dv := by
  simp only [dSub, List.mem_filter, decide_eq_true_eq, and_assoc]

/-- The cell percentage depends only on the demographic subset. -/
lemma crosstabPct_congr (recs recs₂ : List SRecord) (dv qv : Int)
    (h : dSub recs dv = dSub recs₂ dv) :
    crosstabPct recs dv qv = crosstabPct recs₂ dv qv := by
  rw [crosstabPct, crosstabPct, ctTW, ctTW, ctWN, ctWN, h]

/-- A filtered weight sum over records equals the corresponding sum over
their `(q, w)` pair projections. -/
lemma filter_weight_sum_pairs (qv : Int) :
    ∀ rs : List SRecord,
      ((rs.filter fun r => decide (r.q = some qv)).map SRecord.w).sum =
        (((rs.map fun r => (r.q, r.w)).filter fun p =>
          decide (p.1 = some qv)).map Prod.snd).sum := by
  intro rs
  induction rs with
  | nil => rfl
  | cons r rs ih =>
      by_cases h : r.q = some qv <;>
        simp [List.filter_cons, h, ih]

/-- Filtering pairs on a key predicate then projecting keys is projecting
then filtering. -/
lemma map_fst_filter_pred (P : Int → Prop) [DecidablePred P] :
    ∀ q_vals : List (Int × String),
      ((q_vals.filter fun p => decide (P p.1)).map Prod.fst) =
        ((q_vals.map Prod.fst).filter fun v => decide (P v)) := by
  intro q_vals
  induction q_vals with
  | nil => rfl
  | cons p l ih =>
      by_cases h : P p.1 <;> simp [List.filter_cons, h, ih]

/-- The non-refused per-question weighted counts of a demographic subset
partition its weighted total, provided the question mapping is
duplicate-free and covers every masked record of that subset. -/
lemma sum_ctWN_eq_ctTW (recs : List SRecord) (q_vals : List (Int × String))
    (dv : Int) (hnd : (q_vals.map Prod.fst).Nodup)
    (hcov : ∀ r ∈ recs, ctMask r = true → r.demo = some dv →
      r.q ∈ q_vals.map fun p => some p.1) :
    ((((q_vals.map Prod.fst).filter fun v => decide (¬ v = REFUSED_CODE)).map
      fun qv => ctWN recs dv qv).sum) = ctTW recs dv := by
  set L : List (Option Int × ℚ) := (dSub recs dv).map fun r => (r.q, r.w) with hL
  set ks : List Int :=
    (q_vals.map Prod.fst).filter fun v => decide (¬ v = REFUSED_CODE) with hks
  have hknd : (ks.map some).Nodup := by
    apply List.Nodup.map (fun a b h => Option.some.inj h)
    exact hnd.filter _
  have hkcov : ∀ p ∈ L, p.1 ∈ ks.map some := by
    intro p hp
    rcases List.mem_map.mp hp with ⟨r, hr, hre⟩
    rcases (mem_dSub recs dv r).mp hr with ⟨hrecs, hmask, hdemo⟩
    have hsome : r.q.isSome = true := by
      rw [ctMask] at hmask
      simp only [Bool.and_eq_true] at hmask
      exact hmask.1.1.1
    have hne : r.q ≠ some REFUSED_CODE := by
      rw [ctMask] at hmask
      simp only [Bool.and_eq_true, decide_eq_true_eq] at hmask
      exact hmask.1.2
    rcases Option.isSome_iff_exists.mp hsome with ⟨c, hc⟩
    have hcmem := hcov r hrecs hmask hdemo
    have hckeys : c ∈ q_vals.map Prod.fst := by
      rcases List.mem_map.mp hcmem with ⟨q, hq, hqe⟩
      have : q.1 = c := by rw [hc] at hqe; exact Option.some.inj hqe
      exact this ▸ List.mem_map.mpr ⟨q, hq, rfl⟩
    have hcne : c ≠ REFUSED_CODE := fun h => hne (by rw [hc, h])
    have hcks : c ∈ ks := by
      rw [hks, List.mem_filter]
      exact ⟨hckeys, by simp [hcne]⟩
    have : p.1 = r.q := by rw [← hre]
    rw [this, hc]
    exact List.mem_map.mpr ⟨c, hcks, rfl⟩
  have hwn : ∀ qv : Int, ctWN recs dv qv =
      ((L.filter fun p => decide (p.1 = some qv)).map Prod.snd).sum := by
    intro qv
    rw [ctWN, hL]
    exact filter_weight_sum_pairs qv (dSub recs dv)
  have htw : ctTW recs dv = (L.map Prod.snd).sum := by
    rw [ctTW, hL, List.map_map]
    rfl
  have hpart := sum_partition (ks.map some) L hknd hkcov
  rw [List.map_map] at hpart
  rw [htw, ← hpart]
  apply congrArg
  apply List.map_congr_left
  intro qv _
  rw [hwn qv]
  rfl

/-- A non-refused `(qv, ql)` entry of `q_vals` contributes its row to the
block of a demographic category. -/
lemma mem_ctBlock (recs : List SRecord) (q_vals : List (Int × String))
    (dv : Int) (dl : String) (qv : Int) (ql : String)
    (hq : (qv, ql) ∈ q_vals) (hqv : qv ≠ REFUSED_CODE) :
    (⟨dl, ql, crosstabPct recs dv qv⟩ : CTRow) ∈ ctBlock recs q_vals dv dl := by
  rw [ctBlock]
  apply List.mem_flatMap.mpr
  exact ⟨(qv, ql), hq, by rw [if_neg hqv]; exact List.mem_singleton.mpr rfl⟩

/-- A non-refused demographic pair contributes its whole block to the
crosstab output. -/
lemma mem_weighted_crosstab (recs : List SRecord)
    (q_vals demo_vals : List (Int × String)) (dv : Int) (dl : String)
    (row : CTRow) (hd : (dv, dl) ∈ demo_vals) (hdv : dv ≠ REFUSED_CODE)
    (hrow : row ∈ ctBlock recs q_vals dv dl) :
    row ∈ weighted_crosstab recs q_vals demo_vals := by
  rw [weighted_crosstab]
  apply List.mem_flatMap.mpr
  exact ⟨(dv, dl), hd, by rw [if_neg hdv]; exact hrow⟩

/-! ## Claim theorems about `weighted_crosstab` (C2, C3, C6) -/

/-- **C2.** Cross-tab percentages are conditional per demographic category:
the crosstab is, definitionally, the concatenation of one block per
non-refused demographic pair; within the block of a category `dv` whose
weighted base is positive, the reported percentages sum to 100 within the
per-category rounding error `1/20`, provided the (duplicate-free) question
mapping covers every masked record of that category; if the base is zero
every percentage of the block is 0; and a block depends only on its own
demographic subset of the data, so the other categories are unaffected. -/
theorem weighted_crosstab_conditional_sum (recs : List SRecord)
    (q_vals demo_vals : List (Int × String)) (dv : Int) (dl : String)
    (hnd : (q_vals.map Prod.fst).Nodup)
    (hcov : ∀ r ∈ recs, ctMask r = true → r.demo = some dv →
      r.q ∈ q_vals.map fun p => some p.1) :
    (weighted_crosstab recs q_vals demo_vals = demo_vals.flatMap fun p =>
      if p.1 = REFUSED_CODE then [] else ctBlock recs q_vals p.1 p.2)
    ∧ (ctTW recs dv > 0 →
        |((ctBlock recs q_vals dv dl).map (·.pct)).sum - 100|
          ≤ (ctBlock recs q_vals dv dl).length * (1 / 20))
    ∧ (ctTW recs dv = 0 → ∀ row ∈ ctBlock recs q_vals dv dl, row.pct = 0)
    ∧ ∀ recs₂, dSub recs dv = dSub recs₂ dv →
        ctBlock recs q_vals dv dl = ctBlock recs₂ q_vals dv dl := by
  refine ⟨rfl, ?_, ?_, ?_⟩
  · intro hpos
    set T := ctTW recs dv with hT
    have hTne : T ≠ 0 := ne_of_gt hpos
    set qs : List (Int × String) :=
      q_vals.filter fun p => decide (¬ p.1 = REFUSED_CODE) with hqs
    have hpcts : (ctBlock recs q_vals dv dl).map (·.pct) =
        (qs.map fun p => ctWN recs dv p.1 / T * 100).map round1 := by
      rw [ctBlock_eq_map, List.map_map, List.map_map]
      apply List.map_congr_left
      intro p _
      show crosstabPct recs dv p.1 = _
      rw [crosstabPct, ← hT, if_pos hpos]
      rfl
    have hsum : (qs.map fun p => ctWN recs dv p.1 / T * 100).sum = 100 := by
      have hfac : (qs.map fun p => ctWN recs dv p.1 / T * 100) =
          qs.map fun p => ctWN recs dv p.1 * (100 / T) := by
        apply List.map_congr_left
        intro p _
        field_simp
      have hcomp : (qs.map fun p => ctWN recs dv p.1) =
          ((q_vals.map Prod.fst).filter fun v => decide (¬ v = REFUSED_CODE)).map
            fun qv => ctWN recs dv qv := by
        rw [hqs, ← map_fst_filter_pred (fun v => ¬ v = REFUSED_CODE) q_vals,
          List.map_map]
        rfl
      rw [hfac, List.sum_map_mul_right, hcomp,
        sum_ctWN_eq_ctTW recs q_vals dv hnd hcov, ← hT]
      field_simp
    have hlen : (ctBlock recs q_vals dv dl).length =
        (qs.map fun p => ctWN recs dv p.1 / T * 100).length := by
      rw [ctBlock_eq_map, List.length_map, List.length_map]
    rw [hpcts, hlen]
    have h2 := sum_round1_close (qs.map fun p => ctWN recs dv p.1 / T * 100)
    rw [hsum] at h2
    exact_mod_cast h2
  · intro htw row hrow_mem
    rw [ctBlock_eq_map] at hrow_mem
    rcases List.mem_map.mp hrow_mem with ⟨p, _, hp⟩
    rw [← hp]
    show crosstabPct recs dv p.1 = 0
    rw [crosstabPct, htw, if_neg (lt_irrefl 0), round1_zero]
  · intro recs₂ hsubeq
    have : ∀ qv, crosstabPct recs dv qv = crosstabPct recs₂ dv qv :=
      fun qv => crosstabPct_congr recs recs₂ dv qv hsubeq
    simp only [ctBlock, this]

/-- **C2 witness.** One demographic category (code 1) with one record of
weight 2 and one question mapping entry; base `2 > 0`, block sums to 100. -/
theorem weighted_crosstab_conditional_sum_w :
    ((([(1,"x"),(2,"y")] : List (Int × String)).map Prod.fst).Nodup
      ∧ (∀ r ∈ [(⟨some 1, some 1, 2⟩ : SRecord)], ctMask r = true →
          r.demo = some 1 →
          r.q ∈ ([(1,"x"),(2,"y")] : List (Int × String)).map fun p => some p.1))
    ∧ ((weighted_crosstab [⟨some 1, some 1, 2⟩] [(1,"x"),(2,"y")] [(1,"d")] =
        ([(1,"d")] : List (Int × String)).flatMap fun p =>
          if p.1 = REFUSED_CODE then []
          else ctBlock [⟨some 1, some 1, 2⟩] [(1,"x"),(2,"y")] p.1 p.2)
      ∧ (ctTW [⟨some 1, some 1, 2⟩] 1 > 0 →
          |((ctBlock [⟨some 1, some 1, 2⟩] [(1,"x"),(2,"y")] 1 "d").map
            (·.pct)).sum - 100|
            ≤ (ctBlock [⟨some 1, some 1, 2⟩] [(1,"x"),(2,"y")] 1 "d").length
              * (1 / 20))
      ∧ (ctTW [⟨some 1, some 1, 2⟩] 1 = 0 →
          ∀ row ∈ ctBlock [⟨some 1, some 1, 2⟩] [(1,"x"),(2,"y")] 1 "d",
            row.pct = 0)
      ∧ ∀ recs₂, dSub [⟨some 1, some 1, 2⟩] 1 = dSub recs₂ 1 →
          ctBlock [⟨some 1, some 1, 2⟩] [(1,"x"),(2,"y")] 1 "d" =
            ctBlock recs₂ [(1,"x"),(2,"y")] 1 "d") :=
  ⟨⟨by decide, by decide⟩,
    weighted_crosstab_conditional_sum [⟨some 1, some 1, 2⟩] [(1,"x"),(2,"y")]
      [(1,"d")] 1 "d" (by decide) (by decide)⟩

/-- **C3.** Cross-tab subset stability: if one call's question mapping is a
subset of another's (all else equal), every non-refused pair present in
both receives the identical row — with the percentage given by
`crosstabPct`, which is defined from the data and the cell codes alone,
independent of which other question categories are requested, and which
depends only on the demographic subset of the records. -/
theorem weighted_crosstab_subset_stable (recs : List SRecord)
    (q_vals₁ q_vals₂ demo_vals : List (Int × String))
    (dv : Int) (dl : String) (qv : Int) (ql : String)
    (hsub : ∀ p ∈ q_vals₂, p ∈ q_vals₁)
    (hd : (dv, dl) ∈ demo_vals) (hdv : dv ≠ REFUSED_CODE)
    (hq : (qv, ql) ∈ q_vals₂) (hqv : qv ≠ REFUSED_CODE) :
    (⟨dl, ql, crosstabPct recs dv qv⟩ : CTRow) ∈
      weighted_crosstab recs q_vals₁ demo_vals
    ∧ (⟨dl, ql, crosstabPct recs dv qv⟩ : CTRow) ∈
      weighted_crosstab recs q_vals₂ demo_vals
    ∧ ∀ recs₂, dSub recs dv = dSub recs₂ dv →
        crosstabPct recs dv qv = crosstabPct recs₂ dv qv := by
  refine ⟨?_, ?_, fun recs₂ h => crosstabPct_congr recs recs₂ dv qv h⟩
  · exact mem_weighted_crosstab recs q_vals₁ demo_vals dv dl _ hd hdv
      (mem_ctBlock recs q_vals₁ dv dl qv ql (hsub _ hq) hqv)
  · exact mem_weighted_crosstab recs q_vals₂ demo_vals dv dl _ hd hdv
      (mem_ctBlock recs q_vals₂ dv dl qv ql hq hqv)

/-- **C3 witness.** `q_vals₂ = [(1,"x")]` is a subset of
`q_vals₁ = [(1,"x"),(2,"y")]`; the pair (demo 1, question 1) receives the
same row in both calls. -/
theorem weighted_crosstab_subset_stable_w :
    ((∀ p ∈ ([(1,"x")] : List (Int × String)), p ∈
        ([(1,"x"),(2,"y")] : List (Int × String)))
      ∧ ((1 : Int), "d") ∈ ([(1,"d")] : List (Int × String))
      ∧ (1 : Int) ≠ REFUSED_CODE
      ∧ ((1 : Int), "x") ∈ ([(1,"x")] : List (Int × String)))
    ∧ ((⟨"d", "x", crosstabPct [⟨some 1, some 1, 2⟩] 1 1⟩ : CTRow) ∈
        weighted_crosstab [⟨some 1, some 1, 2⟩] [(1,"x"),(2,"y")] [(1,"d")]
      ∧ (⟨"d", "x", crosstabPct [⟨some 1, some 1, 2⟩] 1 1⟩ : CTRow) ∈
        weighted_crosstab [⟨some 1, some 1, 2⟩] [(1,"x")] [(1,"d")]
      ∧ ∀ recs₂, dSub [⟨some 1, some 1, 2⟩] 1 = dSub recs₂ 1 →
          crosstabPct [⟨some 1, some 1, 2⟩] 1 1 = crosstabPct recs₂ 1 1) :=
  ⟨⟨by decide, by decide, by decide, by decide⟩,
    weighted_crosstab_subset_stable [⟨some 1, some 1, 2⟩] [(1,"x"),(2,"y")]
      [(1,"x")] [(1,"d")] 1 "d" 1 "x" (by decide) (by decide) (by decide)
      (by decide) (by decide)⟩

/-- **C6 counterexample.** The claim says both calculators order output by
ascending numeric code regardless of mapping insertion order.
`weighted_crosstab` iterates the demographic dict in insertion order
(`for dv, dl in demo_vals.items()`, app.py 162 — no `sorted`): with the
mapping inserted as `{2:"two", 1:"one"}` and both codes present in the
data, the output rows come out `["two", "one"]`, not in the ascending-code
order `["one", "two"]`. -/
theorem weighted_crosstab_insertion_order_cex :
    (weighted_crosstab [⟨some 1, some 1, 1⟩, ⟨some 1, some 2, 1⟩] [(1,"q")]
      [(2,"two"),(1,"one")]).map (·.demo_label) = ["two", "one"]
    ∧ ((sortInts (([(2,"two"),(1,"one")] : List (Int × String)).map Prod.fst)).filter
        fun v => decide (v ≠ REFUSED_CODE)).map
        (lookupLabel [(2,"two"),(1,"one")]) = ["one", "two"]
    ∧ (["two", "one"] : List String) ≠ ["one", "two"] := by
  refine ⟨?_, ?_, by decide⟩
  · norm_num [weighted_crosstab, ctBlock, REFUSED_CODE]
  · norm_num [sortInts, List.insertionSort, List.orderedInsert, lookupLabel,
      REFUSED_CODE]

/-- **C6 amended.** `weighted_pct` does order its rows by ascending code
(it sorts the mapping keys), for every input; `weighted_crosstab` instead
emits one block per demographic mapping entry in dict insertion order
(each block repeating that entry's label once per non-refused question
entry, themselves in insertion order). -/
theorem output_order_characterization :
    (∀ (values : List (Option Int)) (weights : List ℚ)
      (vmap : List (Int × String)) (ex : Bool),
      ((weighted_pct values weights vmap ex).map (·.value)).Sorted (· ≤ ·))
    ∧ ∀ (recs : List SRecord) (q_vals demo_vals : List (Int × String)),
      (weighted_crosstab recs q_vals demo_vals).map (·.demo_label) =
        (demo_vals.filter fun p => decide (¬ p.1 = REFUSED_CODE)).flatMap fun p =>
          List.replicate
            ((q_vals.filter fun q => decide (¬ q.1 = REFUSED_CODE)).length) p.2 := by
  constructor
  · intro values weights vmap ex
    rw [weighted_pct_map_value]
    exact (List.sorted_insertionSort _ _).sublist (List.filter_sublist _)
  · intro recs q_vals demo_vals
    have hblock : ∀ (dv : Int) (dl : String),
        (ctBlock recs q_vals dv dl).map (·.demo_label) =
          List.replicate
            ((q_vals.filter fun q => decide (¬ q.1 = REFUSED_CODE)).length) dl := by
      intro dv dl
      rw [ctBlock_eq_map, List.map_map]
      exact List.map_const' _ dl
    rw [weighted_crosstab, List.map_flatMap]
    have hcase : ∀ p : Int × String,
        ((if p.1 = REFUSED_CODE then []
          else ctBlock recs q_vals p.1 p.2).map (·.demo_label)) =
          if p.1 = REFUSED_CODE then ([] : List String)
          else List.replicate
            ((q_vals.filter fun q => decide (¬ q.1 = REFUSED_CODE)).length) p.2 := by
      intro p
      by_cases h : p.1 = REFUSED_CODE
      · rw [if_pos h, if_pos h]; rfl
      · rw [if_neg h, if_neg h, hblock]
    simp only [hcase]
    rw [flatMap_if_skip]

/-! ## Claim theorems about the CI estimator (C8, C9) -/

/-- `round(0, 2) = 0`. -/
lemma round2_zero : round2 0 = 0 := by simp [round2]

/-- `round(0, 0) = 0`. -/
lemma round0_zero : round0 0 = 0 := by simp [round0]

/-- Every row of the CI table carries the same `Eff. N` value,
`round(n_eff, 0)`: the effective sample size is computed once, before the
per-category loop. -/
lemma eff_n_of_mem (values : List (Option Int)) (weights : List ℚ)
    (q_vals : List (Int × String)) (row : CIRow)
    (h : row ∈ ci_records values weights q_vals) :
    row.eff_n = round0 (n_eff values weights) := by
  rw [ci_records] at h
  rcases List.mem_flatMap.mp h with ⟨p, _, hrow⟩
  by_cases hp : p.1 = REFUSED_CODE
  · rw [if_pos hp] at hrow
    exact absurd hrow (List.not_mem_nil row)
  · rw [if_neg hp] at hrow
    rw [List.mem_singleton.mp hrow]

/-- **C8 counterexample.** The claim says that whenever all included
weights are equal, `n_eff` equals the raw count of included records.  With
two included records of equal weight 0 the raw count is 2, but
`n_eff = 0²/0`, which is 0 under this model's rational division convention
(NaN in the Python code — in either case not 2). -/
theorem n_eff_zero_weights_cex :
    (∀ p ∈ ciPairs [some 1, some 1] [0, 0], p.2 = 0)
    ∧ (ciPairs [some 1, some 1] [0, 0]).length = 2
    ∧ n_eff [some 1, some 1] [0, 0] = 0
    ∧ (0 : ℚ) ≠ 2 := by
  refine ⟨by decide, by decide, ?_, by norm_num⟩
  norm_num [n_eff, ciTotalW, ciPairs, REFUSED_CODE]

/-- **C8 amended.** `n_eff` is, definitionally, `total_w² / Σ w²` over the
masked records; it is computed once and shared by every category's row;
and whenever all included weights are equal *and nonzero* it equals the
raw unweighted count of included records.  (With equal weights of zero the
quotient is `0/0` — NaN in Python — not the count, which the
counterexample exhibits.) -/
theorem n_eff_characterization (values : List (Option Int)) (weights : List ℚ)
    (q_vals : List (Int × String)) :
    (n_eff values weights = ciTotalW values weights ^ 2 /
      (((ciPairs values weights).map fun p => p.2 ^ 2).sum))
    ∧ (∀ row ∈ ci_records values weights q_vals,
        row.eff_n = round0 (n_eff values weights))
    ∧ ∀ w₀ : ℚ, w₀ ≠ 0 → (∀ p ∈ ciPairs values weights, p.2 = w₀) →
        n_eff values weights = ((ciPairs values weights).length : ℚ) := by
  refine ⟨rfl, fun row h => eff_n_of_mem values weights q_vals row h, ?_⟩
  intro w₀ hw0 hw
  set L := ciPairs values weights with hL
  have h1 : ciTotalW values weights = (L.length : ℚ) * w₀ := by
    rw [ciTotalW, ← hL]
    have := List.sum_eq_card_nsmul (L.map Prod.snd) w₀
      (by intro x hx; rcases List.mem_map.mp hx with ⟨p, hp, he⟩; rw [← he]; exact hw p hp)
    rw [this, List.length_map, nsmul_eq_mul]
  have h2 : ((L.map fun p => p.2 ^ 2).sum) = (L.length : ℚ) * w₀ ^ 2 := by
    have := List.sum_eq_card_nsmul (L.map fun p => p.2 ^ 2) (w₀ ^ 2)
      (by intro x hx; rcases List.mem_map.mp hx with ⟨p, hp, he⟩
          rw [← he, hw p hp])
    rw [this, List.length_map, nsmul_eq_mul]
  rw [n_eff, ← hL, h1, h2]
  rcases Nat.eq_zero_or_pos L.length with hk | hk
  · rw [hk]
    norm_num
  · have hkne : ((L.length : ℚ)) ≠ 0 := Nat.cast_ne_zero.mpr hk.ne'
    rw [div_eq_iff (mul_ne_zero hkne (pow_ne_zero 2 hw0))]
    ring

/-- **C8 amended witness.** Three included records of equal weight `1/2`:
`n_eff = (3/2)²/(3/4) = 3`, the raw count. -/
theorem n_eff_characterization_w :
    ((1/2 : ℚ) ≠ 0 ∧ ∀ p ∈ ciPairs [some 1, some 2, some 1] [1/2, 1/2, 1/2],
      p.2 = 1/2)
    ∧ ((n_eff [some 1, some 2, some 1] [1/2, 1/2, 1/2] =
        ciTotalW [some 1, some 2, some 1] [1/2, 1/2, 1/2] ^ 2 /
          (((ciPairs [some 1, some 2, some 1] [1/2, 1/2, 1/2]).map
            fun p => p.2 ^ 2).sum))
      ∧ (∀ row ∈ ci_records [some 1, some 2, some 1] [1/2, 1/2, 1/2] [(1,"A")],
          row.eff_n = round0 (n_eff [some 1, some 2, some 1] [1/2, 1/2, 1/2]))
      ∧ ∀ w₀ : ℚ, w₀ ≠ 0 →
          (∀ p ∈ ciPairs [some 1, some 2, some 1] [1/2, 1/2, 1/2], p.2 = w₀) →
          n_eff [some 1, some 2, some 1] [1/2, 1/2, 1/2] =
            ((ciPairs [some 1, some 2, some 1] [1/2, 1/2, 1/2]).length : ℚ)) :=
  ⟨⟨by norm_num, by norm_num [ciPairs, REFUSED_CODE]⟩,
    n_eff_characterization [some 1, some 2, some 1] [1/2, 1/2, 1/2] [(1,"A")]⟩

/-- **C9 counterexample.** The claim says a zero weighted base makes the
CI estimator fail with an InvalidInput error.  With every record missing
or refused the weighted base is 0, yet the code performs no such check
and returns one row per non-refused category ("A" here) — with NaN-valued
statistics in Python — rather than failing. -/
theorem ci_records_zero_base_cex :
    ciTotalW [some 99, none] [1, 2] = 0
    ∧ (ci_records [some 99, none] [1, 2] [(99,"R"),(1,"A")]).map (·.response)
      = ["A"] := by
  constructor
  · norm_num [ciTotalW, ciPairs, REFUSED_CODE]
  · simp [ci_records, REFUSED_CODE]

/-- **C9 amended.** When the weighted total over the masked records is
zero, the estimator does not fail: it still returns exactly one row per
non-refused category, in mapping order; the percentage and effective-N
columns of those rows are `0/0`-degenerate — NaN in the Python code,
`0` under this model's rational division convention. -/
theorem ci_records_zero_base_rows (values : List (Option Int)) (weights : List ℚ)
    (q_vals : List (Int × String)) (h0 : ciTotalW values weights = 0) :
    ((ci_records values weights q_vals).map (·.response) =
      (q_vals.filter fun p => decide (¬ p.1 = REFUSED_CODE)).map Prod.snd)
    ∧ ∀ row ∈ ci_records values weights q_vals,
        row.wpct = 0 ∧ row.eff_n = 0 := by
  constructor
  · rw [ci_records, List.map_flatMap]
    have hcase : ∀ p : Int × String,
        (((if p.1 = REFUSED_CODE then [] else
          [(⟨p.2, round2 (pHat values weights p.1 * 100),
            roundR2 (Real.sqrt ((pHat values weights p.1 *
              (1 - pHat values weights p.1) / n_eff values weights : ℚ) : ℝ) * 100),
            roundR2 (max 0 ((pHat values weights p.1 : ℝ) -
              196/100 * Real.sqrt ((pHat values weights p.1 *
                (1 - pHat values weights p.1) / n_eff values weights : ℚ) : ℝ)) * 100),
            roundR2 (min 1 ((pHat values weights p.1 : ℝ) +
              196/100 * Real.sqrt ((pHat values weights p.1 *
                (1 - pHat values weights p.1) / n_eff values weights : ℚ) : ℝ)) * 100),
            round0 (n_eff values weights)⟩ : CIRow)]) : List CIRow).map
              (·.response)) =
          if p.1 = REFUSED_CODE then ([] : List String) else [p.2] := by
      intro p
      by_cases h : p.1 = REFUSED_CODE
      · rw [if_pos h, if_pos h]; rfl
      · rw [if_neg h, if_neg h]; rfl
    simp only [hcase]
    rw [flatMap_if_skip, flatMap_singleton_eq_map]
  · intro row h
    have heff : n_eff values weights = 0 := by
      rw [n_eff, h0]
      norm_num
    rw [ci_records] at h
    rcases List.mem_flatMap.mp h with ⟨p, _, hrow⟩
    by_cases hp : p.1 = REFUSED_CODE
    · rw [if_pos hp] at hrow
      exact absurd hrow (List.not_mem_nil row)
    · rw [if_neg hp] at hrow
      have hph : pHat values weights p.1 = 0 := by
        rw [pHat, h0, div_zero]
      rw [List.mem_singleton.mp hrow]
      constructor
      · show round2 (pHat values weights p.1 * 100) = 0
        rw [hph, zero_mul, round2_zero]
      · show round0 (n_eff values weights) = 0
        rw [heff, round0_zero]

/-- **C9 amended witness.** One refused and one missing record; the
mapping still yields its "A" row. -/
theorem ci_records_zero_base_rows_w :
    ciTotalW [some 99, none] [1, 2] = 0
    ∧ (((ci_records [some 99, none] [1, 2] [(99,"R"),(1,"A")]).map (·.response) =
        (([(99,"R"),(1,"A")] : List (Int × String)).filter
          fun p => decide (¬ p.1 = REFUSED_CODE)).map Prod.snd)
      ∧ ∀ row ∈ ci_records [some 99, none] [1, 2] [(99,"R"),(1,"A")],
          row.wpct = 0 ∧ row.eff_n = 0) :=
  ⟨by norm_num [ciTotalW, ciPairs, REFUSED_CODE],
    ci_records_zero_base_rows [some 99, none] [1, 2] [(99,"R"),(1,"A")]
      (by norm_num [ciTotalW, ciPairs, REFUSED_CODE])⟩

/-! ## Chi-square facts for Cramér's V (C7) -/

/-- The grand total is the sum of the row marginals. -/
lemma grandTotal_eq_rowSums {r c : ℕ} (O : Fin r → Fin c → ℚ) :
    grandTotal O = ∑ i, rowSum O i := rfl

/-- The grand total is the sum of the column marginals. -/
lemma grandTotal_eq_colSums {r c : ℕ} (O : Fin r → Fin c → ℚ) :
    grandTotal O = ∑ j, colSum O j := by
  rw [grandTotal, Finset.sum_comm]
  rfl

/-- A cell is at most its row marginal. -/
lemma cell_le_rowSum {r c : ℕ} (O : Fin r → Fin c → ℚ)
    (h0 : ∀ i j, 0 ≤ O i j) (i : Fin r) (j : Fin c) : O i j ≤ rowSum O i :=
  Finset.single_le_sum (fun k _ => h0 i k) (Finset.mem_univ j)

/-- Expected frequencies are positive when the marginals are positive and
the grand total is positive. -/
lemma expectedFreq_pos {r c : ℕ} (O : Fin r → Fin c → ℚ)
    (hR : ∀ i, 0 < rowSum O i) (hC : ∀ j, 0 < colSum O j)
    (hn : 0 < grandTotal O) (i : Fin r) (j : Fin c) :
    0 < expectedFreq O i j :=
  div_pos (mul_pos (hR i) (hC j)) hn

/-- The expected frequencies total the grand total. -/
lemma sum_expectedFreq {r c : ℕ} (O : Fin r → Fin c → ℚ)
    (hn : grandTotal O ≠ 0) :
    (∑ i, ∑ j, expectedFreq O i j) = grandTotal O := by
  have : (∑ i, ∑ j, expectedFreq O i j) =
      (∑ i, ∑ j, rowSum O i * colSum O j) / grandTotal O := by
    rw [Finset.sum_div]
    apply Finset.sum_congr rfl
    intro i _
    rw [Finset.sum_div]
    rfl
  rw [this, ← Finset.sum_mul_sum, ← grandTotal_eq_rowSums, ← grandTotal_eq_colSums,
    mul_div_assoc, div_self hn, mul_one]

/-- The classical expansion: `Σ (O−E)²/E = Σ O²/E − n`. -/
lemma pearsonChi2_eq {r c : ℕ} (O : Fin r → Fin c → ℚ)
    (hR : ∀ i, 0 < rowSum O i) (hC : ∀ j, 0 < colSum O j)
    (hn : 0 < grandTotal O) :
    pearsonChi2 O = (∑ i, ∑ j, O i j ^ 2 / expectedFreq O i j) - grandTotal O := by
  have hE := expectedFreq_pos O hR hC hn
  have hcell : ∀ (i : Fin r) (j : Fin c),
      (O i j - expectedFreq O i j) ^ 2 / expectedFreq O i j =
        O i j ^ 2 / expectedFreq O i j - 2 * O i j + expectedFreq O i j := by
    intro i j
    have hne := (hE i j).ne'
    field_simp
    ring
  rw [pearsonChi2]
  have hsplit : (∑ i, ∑ j, (O i j - expectedFreq O i j) ^ 2 / expectedFreq O i j) =
      (∑ i, ∑ j, O i j ^ 2 / expectedFreq O i j)
        - 2 * (∑ i, ∑ j, O i j) + (∑ i, ∑ j, expectedFreq O i j) := by
    rw [Finset.mul_sum, ← Finset.sum_sub_distrib, ← Finset.sum_add_distrib]
    apply Finset.sum_congr rfl
    intro i _
    rw [Finset.mul_sum, ← Finset.sum_sub_distrib, ← Finset.sum_add_distrib]
    apply Finset.sum_congr rfl
    intro j _
    exact hcell i j
  rw [hsplit, sum_expectedFreq O hn.ne']
  have : (∑ i, ∑ j, O i j) = grandTotal O := rfl
  rw [this]
  ring

/-- The crude bound `Σ O²/E ≤ n·c` (columns version). -/
lemma sum_sq_div_expected_le {r c : ℕ} (O : Fin r → Fin c → ℚ)
    (h0 : ∀ i j, 0 ≤ O i j) (hR : ∀ i, 0 < rowSum O i)
    (hC : ∀ j, 0 < colSum O j) (hn : 0 < grandTotal O) :
    (∑ i, ∑ j, O i j ^ 2 / expectedFreq O i j) ≤ grandTotal O * c := by
  have hstep1 : (∑ i, ∑ j, O i j ^ 2 / expectedFreq O i j) =
      grandTotal O * ∑ i, ∑ j, O i j ^ 2 / (rowSum O i * colSum O j) := by
    rw [Finset.mul_sum]
    apply Finset.sum_congr rfl
    intro i _
    rw [Finset.mul_sum]
    apply Finset.sum_congr rfl
    intro j _
    rw [expectedFreq, div_div_eq_mul_div, mul_comm (O i j ^ 2) (grandTotal O),
      mul_div_assoc]
  have hstep2 : (∑ i, ∑ j, O i j ^ 2 / (rowSum O i * colSum O j)) ≤ (c : ℚ) := by
    rw [Finset.sum_comm]
    have hcol : ∀ j : Fin c, (∑ i, O i j ^ 2 / (rowSum O i * colSum O j)) ≤ 1 := by
      intro j
      have hinner : (∑ i, O i j ^ 2 / (rowSum O i * colSum O j)) =
          (∑ i, O i j ^ 2 / rowSum O i) / colSum O j := by
        rw [Finset.sum_div]
        apply Finset.sum_congr rfl
        intro i _
        rw [div_div]
      rw [hinner, div_le_one (hC j)]
      have hterm : ∀ i : Fin r, O i j ^ 2 / rowSum O i ≤ O i j := by
        intro i
        rw [div_le_iff₀ (hR i), pow_two]
        exact mul_le_mul_of_nonneg_left (cell_le_rowSum O h0 i j) (h0 i j)
      calc (∑ i, O i j ^ 2 / rowSum O i) ≤ ∑ i, O i j :=
            Finset.sum_le_sum fun i _ => hterm i
        _ = colSum O j := rfl
    calc (∑ j, ∑ i, O i j ^ 2 / (rowSum O i * colSum O j))
        ≤ ∑ _j : Fin c, (1 : ℚ) := Finset.sum_le_sum fun j _ => hcol j
      _ = (c : ℚ) := by simp
  rw [hstep1]
  calc grandTotal O * (∑ i, ∑ j, O i j ^ 2 / (rowSum O i * colSum O j))
      ≤ grandTotal O * c := by
        exact mul_le_mul_of_nonneg_left hstep2 hn.le
    _ = grandTotal O * c := rfl

/-- Pearson's statistic is at most `n·(c−1)`. -/
lemma pearsonChi2_le_cols {r c : ℕ} (O : Fin r → Fin c → ℚ)
    (h0 : ∀ i j, 0 ≤ O i j) (hR : ∀ i, 0 < rowSum O i)
    (hC : ∀ j, 0 < colSum O j) (hn : 0 < grandTotal O) :
    pearsonChi2 O ≤ grandTotal O * ((c : ℚ) - 1) := by
  have h1 := pearsonChi2_eq O hR hC hn
  have h2 := sum_sq_div_expected_le O h0 hR hC hn
  rw [h1]
  have : grandTotal O * ((c : ℚ) - 1) = grandTotal O * c - grandTotal O := by ring
  rw [this]
  linarith

/-- The transposed contingency table. -/
def transposeTable {r c : ℕ} (O : Fin r → Fin c → ℚ) : Fin c → Fin r → ℚ :=
  fun j i => O i j

/-- Transposing preserves the grand total. -/
lemma grandTotal_transpose {r c : ℕ} (O : Fin r → Fin c → ℚ) :
    grandTotal (transposeTable O) = grandTotal O := by
  rw [grandTotal, grandTotal, Finset.sum_comm]
  rfl

/-- Transposing swaps expected frequencies. -/
lemma expectedFreq_transpose {r c : ℕ} (O : Fin r → Fin c → ℚ)
    (j : Fin c) (i : Fin r) :
    expectedFreq (transposeTable O) j i = expectedFreq O i j := by
  rw [expectedFreq, expectedFreq, grandTotal_transpose]
  have h1 : rowSum (transposeTable O) j = colSum O j := rfl
  have h2 : colSum (transposeTable O) i = rowSum O i := rfl
  rw [h1, h2, mul_comm]

/-- Pearson's statistic is transpose-invariant. -/
lemma pearsonChi2_transpose {r c : ℕ} (O : Fin r → Fin c → ℚ) :
    pearsonChi2 (transposeTable O) = pearsonChi2 O := by
  rw [pearsonChi2, pearsonChi2, Finset.sum_comm]
  apply Finset.sum_congr rfl
  intro i _
  apply Finset.sum_congr rfl
  intro j _
  rw [expectedFreq_transpose]
  rfl

/-- Pearson's statistic is at most `n·(r−1)`. -/
lemma pearsonChi2_le_rows {r c : ℕ} (O : Fin r → Fin c → ℚ)
    (h0 : ∀ i j, 0 ≤ O i j) (hR : ∀ i, 0 < rowSum O i)
    (hC : ∀ j, 0 < colSum O j) (hn : 0 < grandTotal O) :
    pearsonChi2 O ≤ grandTotal O * ((r : ℚ) - 1) := by
  have h := pearsonChi2_le_cols (transposeTable O)
    (fun j i => h0 i j) (fun j => hC j) (fun i => hR i)
    (by rw [grandTotal_transpose]; exact hn)
  rw [pearsonChi2_transpose, grandTotal_transpose] at h
  exact h

/-- Yates' correction never increases the statistic. -/
lemma yatesChi2_le_pearsonChi2 {r c : ℕ} (O : Fin r → Fin c → ℚ)
    (hR : ∀ i, 0 < rowSum O i) (hC : ∀ j, 0 < colSum O j)
    (hn : 0 < grandTotal O) :
    yatesChi2 O ≤ pearsonChi2 O := by
  have hE := expectedFreq_pos O hR hC hn
  rw [yatesChi2, pearsonChi2]
  apply Finset.sum_le_sum
  intro i _
  apply Finset.sum_le_sum
  intro j _
  set d := O i j - expectedFreq O i j with hd
  have hm : max (|d| - 1/2) 0 ≤ |d| :=
    max_le (by linarith [abs_nonneg d]) (abs_nonneg d)
  have h0m : (0 : ℚ) ≤ max (|d| - 1/2) 0 := le_max_right _ _
  have hnum : max (|d| - 1/2) 0 ^ 2 ≤ d ^ 2 := by
    have h := pow_le_pow_left h0m hm 2
    rwa [sq_abs] at h
  exact (div_le_div_right (hE i j)).mpr hnum

/-- The statistic scipy actually returns is bounded by `n·(min(r,c)−1)`. -/
lemma chi2stat_le_min {r c : ℕ} (O : Fin r → Fin c → ℚ)
    (h0 : ∀ i j, 0 ≤ O i j) (hR : ∀ i, 0 < rowSum O i)
    (hC : ∀ j, 0 < colSum O j) (hn : 0 < grandTotal O) :
    chi2stat O ≤ grandTotal O * (min (r : ℚ) (c : ℚ) - 1) := by
  have hy : chi2stat O ≤ pearsonChi2 O := by
    rw [chi2stat]
    by_cases h : (r - 1) * (c - 1) = 1
    · rw [if_pos h]
      exact yatesChi2_le_pearsonChi2 O hR hC hn
    · rw [if_neg h]
  have hcast : min (r : ℚ) (c : ℚ) - 1 = min ((r : ℚ) - 1) ((c : ℚ) - 1) :=
    (min_sub_sub_right _ _ _).symm
  rw [hcast, mul_min_of_nonneg _ _ hn.le]
  exact le_min (le_trans hy (pearsonChi2_le_rows O h0 hR hC hn))
    (le_trans hy (pearsonChi2_le_cols O h0 hR hC hn))

/-! ## Claim theorems about `cramers_v` (C7) -/

/-- **C7 counterexample.** The claim says `min(rows−1, cols−1) == 0` makes
`cramers_v` return 0 without raising.  On the 1×2 table `[[1, 0]]` the
expected-frequency table has a zero element, so the scipy call raises
before `cramers_v` ever reaches its degenerate-table check, and the
exception propagates: the function yields an error, not 0. -/
theorem cramers_v_zero_expected_cex :
    min (1 : ℕ) 2 - 1 = 0
    ∧ cramers_v (fun (_ : Fin 1) (j : Fin 2) => if j = 0 then (1 : ℚ) else 0) =
        .error zeroExpectedMsg := by
  refine ⟨rfl, ?_⟩
  have hchi : chi2_contingency
      (fun (_ : Fin 1) (j : Fin 2) => if j = 0 then (1 : ℚ) else 0) =
      .error zeroExpectedMsg := by
    rw [chi2_contingency]
    rw [if_neg, if_neg, if_pos]
    · constructor
      · show (∑ i : Fin 1, ∑ j : Fin 2, _) ≠ (0 : ℚ)
        norm_num [Fin.sum_univ_two]
      · right
        refine ⟨1, ?_⟩
        show (∑ i : Fin 1, _) = (0 : ℚ)
        norm_num
    · norm_num
    · rintro ⟨i, j, hj⟩
      fin_cases j <;> norm_num at hj
  rw [cramers_v, hchi]
  rfl

/-- **C7 amended.** With a nonnegative nonempty table: a zero grand total
yields `ok 0` (scipy's NaN expected frequencies slip past its zero-element
check); when every marginal is nonzero and `min(rows, cols) = 1` the test
is degenerate (`dof == 0`) and the result is `ok 0`; and when every
marginal is nonzero and both dimensions are at least 2 the result is
exactly `sqrt(chi2 / (n·(min(rows,cols)−1)))` for the statistic scipy
returns (Yates-corrected iff `dof == 1`), and that value lies in `[0, 1]`.
(When some marginal is zero with a positive total, the scipy call raises
instead — the counterexample.) -/
theorem cramers_v_characterization {r c : ℕ} (O : Fin r → Fin c → ℚ)
    (h0 : ∀ i j, 0 ≤ O i j) (hr : 1 ≤ r) (hc : 1 ≤ c) :
    (grandTotal O = 0 → cramers_v O = .ok 0)
    ∧ ((∀ i, rowSum O i ≠ 0) → (∀ j, colSum O j ≠ 0) → min r c = 1 →
        cramers_v O = .ok 0)
    ∧ ((∀ i, rowSum O i ≠ 0) → (∀ j, colSum O j ≠ 0) → 2 ≤ min r c →
        cramers_v O = .ok (Real.sqrt ((chi2stat O /
          (grandTotal O * ((min r c : ℚ) - 1)) : ℚ) : ℝ))
        ∧ ∀ x : ℝ, cramers_v O = .ok x → 0 ≤ x ∧ x ≤ 1) := by
  have hneg : ¬ ∃ i j, O i j < 0 := by
    rintro ⟨i, j, h⟩
    exact absurd (h0 i j) (not_le.mpr h)
  have hsize : ¬ (r = 0 ∨ c = 0) := by omega
  refine ⟨?_, ?_, ?_⟩
  · -- zero grand total
    intro hn0
    have hc3 : ¬ (grandTotal O ≠ 0 ∧
        ((∃ i, rowSum O i = 0) ∨ ∃ j, colSum O j = 0)) := fun h => h.1 hn0
    by_cases hdof : (r - 1) * (c - 1) = 0
    · have hchi : chi2_contingency O = .ok (some 0) := by
        rw [chi2_contingency, if_neg hneg, if_neg hsize, if_neg hc3, if_pos hdof]
      rw [cramers_v, hchi]
      simp only [Except.map]
      rw [if_pos (Or.inr hn0)]
    · have hchi : chi2_contingency O = .ok none := by
        rw [chi2_contingency, if_neg hneg, if_neg hsize, if_neg hc3,
          if_neg hdof, if_pos hn0]
      rw [cramers_v, hchi]
      simp only [Except.map]
      rw [if_pos (Or.inr hn0)]
  · -- all marginals nonzero, min dimension 1: dof == 0
    intro hRne hCne hmin
    have hc3 : ¬ (grandTotal O ≠ 0 ∧
        ((∃ i, rowSum O i = 0) ∨ ∃ j, colSum O j = 0)) := by
      rintro ⟨-, (⟨i, hi⟩ | ⟨j, hj⟩)⟩
      exacts [hRne i hi, hCne j hj]
    have hdof : (r - 1) * (c - 1) = 0 := by
      have : r = 1 ∨ c = 1 := by omega
      rcases this with h | h <;> simp [h]
    have hchi : chi2_contingency O = .ok (some 0) := by
      rw [chi2_contingency, if_neg hneg, if_neg hsize, if_neg hc3, if_pos hdof]
    rw [cramers_v, hchi]
    simp only [Except.map]
    have hmd : min (r : ℤ) (c : ℤ) - 1 = 0 := by
      have h1 : min (r : ℤ) (c : ℤ) = 1 := by exact_mod_cast hmin
      omega
    rw [if_pos (Or.inl hmd)]
  · -- all marginals nonzero, both dimensions ≥ 2
    intro hRne hCne hmin
    have hr2 : 2 ≤ r := le_trans hmin (min_le_left r c)
    have hc2 : 2 ≤ c := le_trans hmin (min_le_right r c)
    have hRpos : ∀ i, 0 < rowSum O i := fun i =>
      lt_of_le_of_ne (Finset.sum_nonneg fun j _ => h0 i j) (Ne.symm (hRne i))
    have hCpos : ∀ j, 0 < colSum O j := fun j =>
      lt_of_le_of_ne (Finset.sum_nonneg fun i _ => h0 i j) (Ne.symm (hCne j))
    have hnpos : 0 < grandTotal O := by
      rw [grandTotal_eq_rowSums]
      have : Nonempty (Fin r) := ⟨⟨0, by omega⟩⟩
      exact Finset.sum_pos (fun i _ => hRpos i) Finset.univ_nonempty
    have hc3 : ¬ (grandTotal O ≠ 0 ∧
        ((∃ i, rowSum O i = 0) ∨ ∃ j, colSum O j = 0)) := by
      rintro ⟨-, (⟨i, hi⟩ | ⟨j, hj⟩)⟩
      exacts [hRne i hi, hCne j hj]
    have hdof : (r - 1) * (c - 1) ≠ 0 :=
      Nat.mul_ne_zero (by omega) (by omega)
    have hchi : chi2_contingency O = .ok (some (chi2stat O)) := by
      rw [chi2_contingency, if_neg hneg, if_neg hsize, if_neg hc3,
        if_neg hdof, if_neg hnpos.ne', chi2stat]
      by_cases h1 : (r - 1) * (c - 1) = 1
      · rw [if_pos h1, if_pos h1]
      · rw [if_neg h1, if_neg h1]
    have hmd : (min (r : ℤ) (c : ℤ) - 1 : ℤ) ≠ 0 := by
      have h2 : (2 : ℤ) ≤ min (r : ℤ) (c : ℤ) := by exact_mod_cast hmin
      omega
    have hcast : (((min (r : ℤ) (c : ℤ) - 1 : ℤ)) : ℚ) =
        min (r : ℚ) (c : ℚ) - 1 := by
      push_cast
      ring
    have hok : cramers_v O = .ok (Real.sqrt ((chi2stat O /
        (grandTotal O * ((min r c : ℚ) - 1)) : ℚ) : ℝ)) := by
      rw [cramers_v, hchi]
      simp only [Except.map]
      rw [if_neg (by push_neg; exact ⟨hmd, hnpos.ne'⟩)]
      rw [hcast]
      rfl
    refine ⟨hok, ?_⟩
    intro x hx
    rw [hok] at hx
    have hxeq : x = Real.sqrt ((chi2stat O /
        (grandTotal O * ((min r c : ℚ) - 1)) : ℚ) : ℝ) :=
      (Except.ok.injEq _ _).mp hx.symm
    rw [hxeq]
    refine ⟨Real.sqrt_nonneg _, Real.sqrt_le_one.mpr ?_⟩
    have hden : (0 : ℚ) < grandTotal O * ((min r c : ℚ) - 1) := by
      apply mul_pos hnpos
      have : (2 : ℚ) ≤ (min r c : ℚ) := by exact_mod_cast hmin
      linarith
    have hq : chi2stat O / (grandTotal O * ((min r c : ℚ) - 1)) ≤ 1 := by
      rw [div_le_one hden, mul_comm]
      have := chi2stat_le_min O h0 hRpos hCpos hnpos
      linarith [this]
    exact_mod_cast hq

/-- **C7 amended witness.** The spec's scenario-3 table `[[50,30],[20,40]]`:
all marginals positive, `min(r,c)=2`. -/
theorem cramers_v_characterization_w :
    (∀ (i : Fin 2) (j : Fin 2), 0 ≤ (fun i j =>
        if i = 0 then (if j = 0 then (50 : ℚ) else 30)
        else (if j = 0 then 20 else 40)) i j)
    ∧ ((grandTotal (fun (i : Fin 2) (j : Fin 2) =>
        if i = 0 then (if j = 0 then (50 : ℚ) else 30)
        else (if j = 0 then 20 else 40)) = 0 →
        cramers_v (fun (i : Fin 2) (j : Fin 2) =>
          if i = 0 then (if j = 0 then (50 : ℚ) else 30)
          else (if j = 0 then 20 else 40)) = .ok 0)
      ∧ ((∀ i, rowSum (fun (i : Fin 2) (j : Fin 2) =>
            if i = 0 then (if j = 0 then (50 : ℚ) else 30)
            else (if j = 0 then 20 else 40)) i ≠ 0) →
          (∀ j, colSum (fun (i : Fin 2) (j : Fin 2) =>
            if i = 0 then (if j = 0 then (50 : ℚ) else 30)
            else (if j = 0 then 20 else 40)) j ≠ 0) → min 2 2 = 1 →
          cramers_v (fun (i : Fin 2) (j : Fin 2) =>
            if i = 0 then (if j = 0 then (50 : ℚ) else 30)
            else (if j = 0 then 20 else 40)) = .ok 0)
      ∧ ((∀ i, rowSum (fun (i : Fin 2) (j : Fin 2) =>
            if i = 0 then (if j = 0 then (50 : ℚ) else 30)
            else (if j = 0 then 20 else 40)) i ≠ 0) →
          (∀ j, colSum (fun (i : Fin 2) (j : Fin 2) =>
            if i = 0 then (if j = 0 then (50 : ℚ) else 30)
            else (if j = 0 then 20 else 40)) j ≠ 0) → 2 ≤ min 2 2 →
          cramers_v (fun (i : Fin 2) (j : Fin 2) =>
            if i = 0 then (if j = 0 then (50 : ℚ) else 30)
            else (if j = 0 then 20 else 40)) =
            .ok (Real.sqrt ((chi2stat (fun (i : Fin 2) (j : Fin 2) =>
              if i = 0 then (if j = 0 then (50 : ℚ) else 30)
              else (if j = 0 then 20 else 40)) /
              (grandTotal (fun (i : Fin 2) (j : Fin 2) =>
                if i = 0 then (if j = 0 then (50 : ℚ) else 30)
                else (if j = 0 then 20 else 40)) * ((min 2 2 : ℚ) - 1)) : ℚ) : ℝ))
          ∧ ∀ x : ℝ, cramers_v (fun (i : Fin 2) (j : Fin 2) =>
              if i = 0 then (if j = 0 then (50 : ℚ) else 30)
              else (if j = 0 then 20 else 40)) = .ok x → 0 ≤ x ∧ x ≤ 1)) :=
  ⟨by decide, cramers_v_characterization
    (fun (i : Fin 2) (j : Fin 2) =>
      if i = 0 then (if j = 0 then (50 : ℚ) else 30)
      else (if j = 0 then 20 else 40)) (by decide) (by norm_num) (by norm_num)⟩

end PewW152
